import Mathlib

/-!
Verification of the frugen FRU library field and area codecs.

Shallow embedding of the C sources under src/lib (fru_setfield.c,
fru__decode.c, fru_common.c, fru_binhex.c, fru_save.c, fru_enable_area.c,
fru_mr_ops.c, fru_add_mr.c). Bytes are modelled as Nat values below 256,
C strings as NUL-free lists of bytes, fallible functions as Except values.
Bitwise operations on disjoint bit ranges are written arithmetically:
x & 0x3F is x % 64, x >> 6 is x / 64, (x & 3) << 6 is x % 4 * 64, and
an OR of disjoint ranges is an addition. Each definition carries the name
of the C function it embeds.

A few constants come from the public header (fru.h) of the library, whose
current revision is not part of the snapshot; their values are fixed by the
older src/fru.h (FRU_FIELDDATALEN, type codes 0..3) and by the wire format
itself (6-bit length field, so the maximum payload is 63 bytes).
-/

set_option linter.unusedVariables false

deriving instance DecidableEq for Except

namespace Frugen

/-- Error codes from fru_errno.h (fru_error_code_t); only the codes reachable
from the modelled functions are listed. -/
inductive FruErr where
  | fegeneric
  | feinit
  | fenonprint
  | fenonhex
  | ferange
  | fenoteven
  | feautoenc
  | febadenc
  | fe2small
  | fe2big
  | fesize
  | feareadup
  | feareabadtype
  | febdate
  | fenorec
  | femrmgmtbad
  | femrnotsup
  | femrend
  | feapos
  | feaenabled
  | feadisabled
  deriving DecidableEq, Repr

/-- Field encodings (fru_field_enc_t of the public header): the four real
encodings and the meta values Empty, Auto, Preserve. -/
inductive FieldEnc where
  | fe_empty
  | fe_binary
  | fe_bcdplus
  | fe_6bitascii
  | fe_text
  | fe_auto
  | fe_preserve
  deriving DecidableEq, Repr

/-- FRU_FE_IS_REAL: the four encodings that exist on the wire. -/
def FieldEnc.isReal : FieldEnc → Bool
  | .fe_binary => true
  | .fe_bcdplus => true
  | .fe_6bitascii => true
  | .fe_text => true
  | _ => false

/-- Wire type code of an encoding: FRU__TYPE_BINARY 0x00, FRU__TYPE_BCDPLUS
0x01, FRU__TYPE_ASCII_6BIT 0x02, FRU__TYPE_TEXT 0x03 (src/fru-private.h).
Meta encodings never reach the wire. -/
def FieldEnc.typeCode : FieldEnc → Nat
  | .fe_bcdplus => 1
  | .fe_6bitascii => 2
  | .fe_text => 3
  | _ => 0

/-- FRU_FE_FROMREAL: the real encoding denoted by a 2-bit wire type code. -/
def encFromType (t : Nat) : FieldEnc :=
  match t with
  | 0 => .fe_binary
  | 1 => .fe_bcdplus
  | 2 => .fe_6bitascii
  | _ => .fe_text

/-- FRU__FIELDLEN: the low 6 bits of a type/length byte, x & 0x3F. -/
def FRU__FIELDLEN (x : Nat) : Nat := x % 64

/-- FRU__TYPELEN: type code in the high 2 bits, length in the low 6 bits.
The two bit ranges are disjoint, so the OR is an addition. -/
def FRU__TYPELEN (t l : Nat) : Nat := t * 64 + FRU__FIELDLEN l

/-- FRU__TYPE: the high 2 bits of a type/length byte, (x & 0xC0) >> 6. -/
def FRU__TYPE (x : Nat) : Nat := x % 256 / 64

/-- FRU__FIELD_EMPTY is FRU__TYPELEN(TEXT, 0), the byte 0xC0. -/
def FRU__FIELD_EMPTY : Nat := FRU__TYPELEN 3 0

/-- FRU__FIELD_TERMINATOR is FRU__TYPELEN(TEXT, 1), the byte 0xC1. -/
def FRU__FIELD_TERMINATOR : Nat := FRU__TYPELEN 3 1

/-- Encoded field: type/length byte plus payload (fru__file_field_t). -/
structure FileField where
  typelen : Nat
  data : List Nat
  deriving DecidableEq, Repr

/-- Decoded field: an encoding and a value string (fru_field_t). -/
structure FruField where
  enc : FieldEnc
  val : List Nat
  deriving DecidableEq, Repr

/-- Checksum of a byte block (fru__calc_checksum in fru_common.c): the bytes
are summed in a uint8 accumulator, and the negation of the accumulator,
computed through a cast to int8, is returned as an unsigned byte. -/
def fru__calc_checksum (bs : List Nat) : Nat :=
  let checksum : Nat := bs.foldl (fun a b => (a + b) % 256) 0
  let s8 : Int := if checksum < 128 then (checksum : Int) else (checksum : Int) - 256
  ((-s8) % 256).toNat

/-- Value of one hex digit character, with uppercase folded to lowercase
first, as in fru_hex2byte (fru_common.c). -/
def fru_hex2nibble (c : Nat) : Except FruErr Nat :=
  let c := if 0x41 ≤ c ∧ c ≤ 0x46 then c - 0x41 + 0x61 else c
  if 0x30 ≤ c ∧ c ≤ 0x39 then pure (c - 0x30)
  else if 0x61 ≤ c ∧ c ≤ 0x66 then pure (c - 0x61 + 10)
  else throw .fenonhex

/-- Hex digit pair to a byte, first digit in the high nibble (fru_hex2byte). -/
def fru_hex2byte (c0 c1 : Nat) : Except FruErr Nat := do
  let n0 ← fru_hex2nibble c0
  let n1 ← fru_hex2nibble c1
  pure (n0 * 16 + n1)

/-- Hex conversion modes (fru__hex_mode_t in lib/fru-private.h). -/
inductive HexMode where
  | relaxed
  | strict
  deriving DecidableEq, Repr

/-- Separator characters skipped by relaxed hex parsing (fru__hexstr2bin). -/
def isHexSep (c : Nat) : Bool :=
  c = 0x20 || c = 0x09 || c = 0x3A || c = 0x2D || c = 0x2E

/-- Loop of fru__hexstr2bin (fru_setfield.c): consume two characters per
byte while at least two characters remain and the output limit is not hit;
in relaxed mode a separator character is skipped. On exit, leftover input
with the limit reached is a truncation warning (FE2BIG, still success) and
any other leftover input is a FENOTEVEN failure. -/
def fru__hexstr2bin_go (mode : HexMode) (limit : Nat) :
    List Nat → Nat → Except FruErr (List Nat)
  | c0 :: c1 :: rest, size =>
    if limit = 0 ∨ size < limit then
      if mode = .relaxed ∧ isHexSep c0 then
        fru__hexstr2bin_go mode limit (c1 :: rest) size
      else do
        let b ← fru_hex2byte c0 c1
        let bs ← fru__hexstr2bin_go mode limit rest (size + 1)
        pure (b :: bs)
    else
      pure []
  | [_], size =>
    if limit ≠ 0 ∧ size = limit then pure [] else throw .fenoteven
  | [], _ => pure []

/-- Hex string to byte array (fru__hexstr2bin in fru_setfield.c), with the
output size limit in bytes (0 meaning unlimited). -/
def fru__hexstr2bin (mode : HexMode) (limit : Nat) (s : List Nat) :
    Except FruErr (List Nat) :=
  fru__hexstr2bin_go mode limit s 0

/-- Binary field encoder (encode_binary in fru_setfield.c): parse the hex
string with a FRU__FIELDMAXLEN = 63 byte limit, prefix the type/length. -/
def encode_binary (mode : HexMode) (s : List Nat) : Except FruErr FileField := do
  let bs ← fru__hexstr2bin mode 63 s
  pure ⟨FRU__TYPELEN 0 bs.length, bs⟩

/-- BCD+ nibble of one character (encode_bcdplus in fru_setfield.c):
NUL and space become 0xA, dash 0xB, dot 0xC, digits their value; anything
else is a FERANGE failure. -/
def bcd_nibble (c : Nat) : Except FruErr Nat :=
  if c = 0 ∨ c = 0x20 then pure 0xA
  else if c = 0x2D then pure 0xB
  else if c = 0x2E then pure 0xC
  else if 0x30 ≤ c ∧ c ≤ 0x39 then pure (c - 0x30)
  else throw .ferange

/-- Packing loop of encode_bcdplus. The C loop keeps the two most recent
nibbles in a two-element array c and stores c[0] << 4 | c[1] into the output
byte at every character, so a lone trailing character is paired with the
stale low nibble of the previous pair (0 at the start); the second argument
threads that stale nibble. -/
def bcd_pack : List Nat → Nat → Except FruErr (List Nat)
  | [], _ => pure []
  | [a], c1 => do
    let na ← bcd_nibble a
    pure [na * 16 + c1]
  | a :: b :: rest, _ => do
    let na ← bcd_nibble a
    let nb ← bcd_nibble b
    let bs ← bcd_pack rest nb
    pure ((na * 16 + nb) :: bs)

/-- BCD+ field encoder (encode_bcdplus in fru_setfield.c). The type/length
byte stores lenbcd = (len + 1) / 2 truncated to 6 bits; truncation is a
FE2BIG warning, not a failure, and the final memcpy in fru__encode_field
limits the copied payload to the stored length. -/
def encode_bcdplus (mode : HexMode) (s : List Nat) : Except FruErr FileField := do
  let lenbcd0 := (s.length + 1) / 2
  let lenbcd := if lenbcd0 > FRU__FIELDLEN lenbcd0 then FRU__FIELDLEN lenbcd0 else lenbcd0
  let bs ← bcd_pack s 0
  pure ⟨FRU__TYPELEN 1 lenbcd, bs⟩

/-- One character to its 6-bit value (encode_6bit in fru_setfield.c):
char c = s[i] - 0x20 in signed char arithmetic, FERANGE when c > 63 as a
signed value, then c &= 0x3F. Characters at or above 0x60 whose difference
stays in [64,127] fail; anything else, including control characters, is
accepted after masking, exactly as the C code does. -/
def six_of_char (ch : Nat) : Except FruErr Nat :=
  let ci : Int := (if ch < 128 then (ch : Int) else (ch : Int) - 256) - 32
  let cs : Int := ci % 256
  let cv : Int := if cs < 128 then cs else cs - 256
  if cv > 63 then throw .ferange else pure (cs % 64).toNat

/-- Packing loop of encode_6bit: four characters go into three bytes.
The C loop switches on i % 4 and ORs the pieces into the output bytes;
the bit ranges are disjoint, so each byte is the sum written below. -/
def pack6 : List Nat → Except FruErr (List Nat)
  | [] => pure []
  | [c0] => do
    let x0 ← six_of_char c0
    pure [x0]
  | [c0, c1] => do
    let x0 ← six_of_char c0
    let x1 ← six_of_char c1
    pure [x0 + x1 % 4 * 64, x1 / 4]
  | [c0, c1, c2] => do
    let x0 ← six_of_char c0
    let x1 ← six_of_char c1
    let x2 ← six_of_char c2
    pure [x0 + x1 % 4 * 64, x1 / 4 + x2 % 16 * 16, x2 / 16]
  | c0 :: c1 :: c2 :: c3 :: rest => do
    let x0 ← six_of_char c0
    let x1 ← six_of_char c1
    let x2 ← six_of_char c2
    let x3 ← six_of_char c3
    let bs ← pack6 rest
    pure ((x0 + x1 % 4 * 64) :: (x1 / 4 + x2 % 16 * 16) :: (x2 / 16 + x3 * 4) :: bs)

/-- Six-bit ASCII field encoder (encode_6bit in fru_setfield.c). The stored
length is FRU__6BIT_LENGTH(len) = (3 len + 3) / 4 truncated to 6 bits
(truncation is a FE2BIG warning; the memcpy in fru__encode_field then
limits the payload to the stored length). -/
def encode_6bit (mode : HexMode) (s : List Nat) : Except FruErr FileField := do
  let len6bit0 := (s.length * 3 + 3) / 4
  let len6bit := if len6bit0 > FRU__FIELDLEN len6bit0 then FRU__FIELDLEN len6bit0 else len6bit0
  let bs ← pack6 s
  pure ⟨FRU__TYPELEN 2 len6bit, bs⟩

/-- Printable ASCII as tested by isprint in the C locale. -/
def isPrintByte (c : Nat) : Bool := 0x20 ≤ c && c ≤ 0x7E

/-- Copy loop of encode_text: read count characters from the string through
the NUL terminator (reading beyond the end of a C string yields the NUL
byte, modelled by headD 0), failing with FENONPRINT on any non-printable
byte, including that NUL. -/
def text_collect : Nat → List Nat → Except FruErr (List Nat)
  | 0, _ => pure []
  | n + 1, s =>
    let c := s.headD 0
    if isPrintByte c then do
      let rest ← text_collect n s.tail
      pure (c :: rest)
    else throw .fenonprint

/-- Text field encoder (encode_text in fru_setfield.c): length truncated to
6 bits (FE2BIG warning), and a type/length byte equal to the 0xC1 field
terminator is incremented so that the single character is followed by its
NUL byte. -/
def encode_text (mode : HexMode) (s : List Nat) : Except FruErr FileField := do
  let len0 := s.length
  let len := if len0 > FRU__FIELDLEN len0 then FRU__FIELDLEN len0 else len0
  let tl0 := FRU__TYPELEN 3 len
  let tl := if tl0 = FRU__FIELD_TERMINATOR then tl0 + 1 else tl0
  let bs ← text_collect (FRU__FIELDLEN tl) s
  pure ⟨tl, bs⟩

/-- Dispatch on a real encoding, mirroring the encode[] table indexed by
FRU_REAL_FE in fru__encode_field. -/
def encodeReal (enc : FieldEnc) (mode : HexMode) (s : List Nat) :
    Except FruErr FileField :=
  match enc with
  | .fe_binary => encode_binary mode s
  | .fe_bcdplus => encode_bcdplus mode s
  | .fe_6bitascii => encode_6bit mode s
  | _ => encode_text mode s

/-- Final memcpy of fru__encode_field: FRU__FIELDSIZE(typelen) bytes are
copied out, that is the type/length byte plus FRU__FIELDLEN(typelen)
payload bytes. -/
def fieldTrim (f : FileField) : FileField :=
  ⟨f.typelen, f.data.take (FRU__FIELDLEN f.typelen)⟩

/-- Field encoder entry point (fru__encode_field in fru_setfield.c).
Empty meta-encoding turns into Text over the empty string; a non-real,
non-auto encoding is FEBADENC; an empty value is the single FRU__FIELD_EMPTY
byte; a specific real encoding runs its encoder in relaxed hex mode; Auto
tries 6-bit ASCII, BCD+, Binary (strict hex mode), then Text, and failure of
all four is FEAUTOENC. -/
def fru__encode_field (encoding : FieldEnc) (s : List Nat) :
    Except FruErr FileField :=
  let es : FieldEnc × List Nat :=
    if encoding = .fe_empty then (.fe_text, []) else (encoding, s)
  let encoding := es.1
  let s := es.2
  if encoding ≠ .fe_auto ∧ encoding.isReal = false then throw .febadenc
  else if s.length = 0 then pure ⟨FRU__FIELD_EMPTY, []⟩
  else if encoding.isReal then
    match encodeReal encoding .relaxed s with
    | .ok f => pure (fieldTrim f)
    | .error e => throw e
  else
    match encode_6bit .strict s with
    | .ok f => pure (fieldTrim f)
    | .error _ =>
      match encode_bcdplus .strict s with
      | .ok f => pure (fieldTrim f)
      | .error _ =>
        match encode_binary .strict s with
        | .ok f => pure (fieldTrim f)
        | .error _ =>
          match encode_text .strict s with
          | .ok f => pure (fieldTrim f)
          | .error _ => throw .feautoenc

/-- Trailing-space stripper (cut_tail in fru__decode.c). -/
def cut_tail (l : List Nat) : List Nat :=
  (l.reverse.dropWhile (fun c => c = 0x20)).reverse

/-- One nibble to an uppercase hex digit (nibble2hex in fru_binhex.c). -/
def nibble2hex (n : Nat) : Nat := if n > 9 then n - 10 + 0x41 else n + 0x30

/-- One byte to two hex digits (fru__byte2hex in fru_binhex.c). -/
def fru__byte2hex (b : Nat) : List Nat := [nibble2hex (b / 16 % 16), nibble2hex (b % 16)]

/-- Binary buffer to hex string (fru__decode_raw_binary in fru_binhex.c);
fails, leaving the zeroed output buffer as an empty string, when the result
would not fit the output buffer. -/
def fru__decode_raw_binary (inBytes : List Nat) (outLen : Nat) : List Nat :=
  if inBytes.length * 2 + 1 > outLen then [] else inBytes.flatMap fru__byte2hex

/-- Read count bytes from a buffer the way the C decoders index the payload
array; a read past the modelled list yields 0. -/
def bytesAt : List Nat → Nat → List Nat
  | _, 0 => []
  | bs, n + 1 => bs.headD 0 :: bytesAt bs.tail n

/-- FRU_FIELDMAXARRAY, the size of the fru_field_t value buffer:
2 * 63 + 1 bytes (src/fru.h). -/
def FRU_FIELDMAXARRAY : Nat := 127

/-- Binary field decoder (decode_binary in fru__decode.c). -/
def decode_binary (field : FileField) : List Nat :=
  fru__decode_raw_binary (bytesAt field.data (FRU__FIELDLEN field.typelen))
    FRU_FIELDMAXARRAY

/-- One BCD+ nibble to its character (decode_bcdplus in fru__decode.c). -/
def bcdChar (n : Nat) : Nat :=
  if n = 0xA then 0x20
  else if n = 0xB then 0x2D
  else if n = 0xC then 0x2E
  else if 0xD ≤ n ∧ n ≤ 0xF then 0x3F
  else n + 0x30

/-- Unpacking loop of decode_bcdplus: the character at index i comes from
nibble (data[i / 2] >> (i odd ? 0 : 4)) & 0xF, so each payload byte yields
its high nibble then its low nibble. The count is in payload bytes. -/
def bcd_unpack : Nat → List Nat → List Nat
  | 0, _ => []
  | n + 1, bs =>
    let b := bs.headD 0
    bcdChar (b / 16 % 16) :: bcdChar (b % 16) :: bcd_unpack n bs.tail

/-- BCD+ field decoder (decode_bcdplus in fru__decode.c): 2 characters per
payload byte, then trailing spaces stripped. -/
def decode_bcdplus (field : FileField) : List Nat :=
  cut_tail (bcd_unpack (FRU__FIELDLEN field.typelen) field.data)

/-- Unpacking loop of decode_6bit: the first argument is the remaining
output character count, the second the remaining packed bytes. Before the
characters at i % 4 = 0, 2, 3 the C loop re-checks the current packed byte
and stops at a zero byte; the byte checked before the character at
i % 4 = 1 is the same byte already checked at i % 4 = 0. The character
values rewrite the shift-and-mask expressions of the C code
arithmetically. -/
def unpack6 : Nat → List Nat → List Nat
  | 0, _ => []
  | _ + 1, [] => []
  | 1, b0 :: _ =>
    if b0 = 0 then [] else [b0 % 64 + 32]
  | 2, b0 :: rest =>
    if b0 = 0 then []
    else [b0 % 64 + 32, (b0 / 64 + rest.headD 0 * 4) % 64 + 32]
  | 3, b0 :: rest =>
    if b0 = 0 then []
    else
      let b1 := rest.headD 0
      let b2 := (rest.drop 1).headD 0
      let c0 := b0 % 64 + 32
      let c1 := (b0 / 64 + b1 * 4) % 64 + 32
      if b1 = 0 then [c0, c1]
      else [c0, c1, (b1 / 16 + b2 * 16) % 64 + 32]
  | n + 4, b0 :: rest =>
    if b0 = 0 then []
    else
      let b1 := rest.headD 0
      let b2 := (rest.drop 1).headD 0
      let c0 := b0 % 64 + 32
      let c1 := (b0 / 64 + b1 * 4) % 64 + 32
      if b1 = 0 then [c0, c1]
      else
        let c2 := (b1 / 16 + b2 * 16) % 64 + 32
        if b2 = 0 then [c0, c1, c2]
        else c0 :: c1 :: c2 :: (b2 / 4 % 64 + 32) :: unpack6 n (rest.drop 2)

/-- Six-bit ASCII field decoder (decode_6bit in fru__decode.c): the output
length is FRU__6BIT_FULLLENGTH(len6bit) = 4 len6bit / 3 characters, then
trailing spaces are stripped. -/
def decode_6bit (field : FileField) : List Nat :=
  let len6bit := FRU__FIELDLEN field.typelen
  cut_tail (unpack6 (len6bit * 4 / 3) field.data)

/-- Text field decoder (decode_text in fru__decode.c): the payload bytes are
copied unchanged; printability is not verified (the C source carries a TODO
noting the missing check). -/
def decode_text (field : FileField) : List Nat :=
  bytesAt field.data (FRU__FIELDLEN field.typelen)

/-- Field decoder entry point (fru__decode_field in fru__decode.c). The
encoding comes from the 2-bit type code, which always denotes one of the
four real encodings, so the FEBADENC branch of the C code is unreachable;
the decoder table is indexed by that code. -/
def fru__decode_field (field : FileField) : Except FruErr FruField :=
  let enc := encFromType (FRU__TYPE field.typelen)
  match enc with
  | .fe_binary => pure ⟨enc, decode_binary field⟩
  | .fe_bcdplus => pure ⟨enc, decode_bcdplus field⟩
  | .fe_6bitascii => pure ⟨enc, decode_6bit field⟩
  | _ => pure ⟨enc, decode_text field⟩

/-- Area types with the numeric order of fru_area_type_t: Internal Use 0,
Chassis 1, Board 2, Product 3, Multirecord 4. -/
inductive AreaType where
  | internal_use
  | chassis_info
  | board_info
  | product_info
  | mr
  deriving DecidableEq, Repr

/-- Numeric value of an area type, matching the file header offsets. -/
def AreaType.val : AreaType → Nat
  | .internal_use => 0
  | .chassis_info => 1
  | .board_info => 2
  | .product_info => 3
  | .mr => 4

/-- Timeval with seconds and microseconds (struct timeval). -/
structure Timeval where
  sec : Int
  usec : Int
  deriving DecidableEq, Repr

/-- Decoded multirecord-area record (fru_mr_rec_t): a Management Access
record, a raw record, or the empty placeholder FRU_MR_EMPTY. -/
inductive MrRec where
  | mgmt (subtype : Nat) (mdata : List Nat)
  | raw (rtype : Nat) (renc : FieldEnc) (rdata : List Nat)
  | empty
  deriving DecidableEq, Repr

/-- Per-area presence flags (the present[FRU_TOTAL_AREAS] array of fru_t). -/
structure Presence where
  internal_use : Bool
  chassis_info : Bool
  board_info : Bool
  product_info : Bool
  mr : Bool
  deriving DecidableEq, Repr

/-- Read one presence flag. -/
def Presence.get (p : Presence) : AreaType → Bool
  | .internal_use => p.internal_use
  | .chassis_info => p.chassis_info
  | .board_info => p.board_info
  | .product_info => p.product_info
  | .mr => p.mr

/-- Write one presence flag. -/
def Presence.set (p : Presence) (a : AreaType) (b : Bool) : Presence :=
  match a with
  | .internal_use => { p with internal_use := b }
  | .chassis_info => { p with chassis_info := b }
  | .board_info => { p with board_info := b }
  | .product_info => { p with product_info := b }
  | .mr => { p with mr := b }

/-- Chassis info area of fru_t: chassis type byte, two mandatory fields,
custom field list. -/
structure ChassisArea where
  ctype : Nat
  pn : FruField
  serial : FruField
  cust : List FruField
  deriving DecidableEq, Repr

/-- Board info area of fru_t: language code, manufacturing timestamp with
the auto flag, five mandatory fields, custom field list. -/
structure BoardArea where
  lang : Nat
  tv : Timeval
  tv_auto : Bool
  mfg : FruField
  pname : FruField
  serial : FruField
  pn : FruField
  file : FruField
  cust : List FruField
  deriving DecidableEq, Repr

/-- Product info area of fru_t: language code, seven mandatory fields,
custom field list. -/
structure ProductArea where
  lang : Nat
  mfg : FruField
  pname : FruField
  pn : FruField
  ver : FruField
  serial : FruField
  atag : FruField
  file : FruField
  cust : List FruField
  deriving DecidableEq, Repr

/-- Decoded FRU (fru_t): internal-use hex string, the three info areas, the
multirecord list, presence flags and the on-disk area order array. -/
structure Fru where
  internal : List Nat
  chassis : ChassisArea
  board : BoardArea
  product : ProductArea
  mr : List MrRec
  present : Presence
  order : List AreaType
  deriving DecidableEq, Repr

/-- FRU date/time base (fru__datetime_base in fru_common.c): seconds from
the UNIX epoch to 1996-01-01T00:00, with mktime evaluated in UTC. -/
def fru__datetime_base : Int := 820454400

/-- FRU_DATETIME_MAX: the FRU date field has 3 bytes of minutes. -/
def FRU_DATETIME_MAX : Int := 0xFFFFFF * 60 + fru__datetime_base

/-- FRU__BLOCKS: bytes to 8-byte blocks, rounding up. -/
def FRU__BLOCKS (bytes : Nat) : Nat := (bytes + 7) / 8

/-- FRU__BLOCK_ALIGN: round a byte size up to a multiple of 8. -/
def FRU__BLOCK_ALIGN (size : Nat) : Nat := 8 * FRU__BLOCKS size

/-- Mandatory field list of an info area, in the order of the in_field
table of encode_info_area (fru_save.c). -/
def mandatoryFields (atype : AreaType) (fru : Fru) : List FruField :=
  match atype with
  | .chassis_info => [fru.chassis.pn, fru.chassis.serial]
  | .board_info =>
    [fru.board.mfg, fru.board.pname, fru.board.serial, fru.board.pn, fru.board.file]
  | .product_info =>
    [fru.product.mfg, fru.product.pname, fru.product.pn, fru.product.ver,
     fru.product.serial, fru.product.atag, fru.product.file]
  | _ => []

/-- Custom field list of an info area (cust_head in encode_info_area). -/
def custFields (atype : AreaType) (fru : Fru) : List FruField :=
  match atype with
  | .chassis_info => fru.chassis.cust
  | .board_info => fru.board.cust
  | .product_info => fru.product.cust
  | _ => []

/-- Langtype header byte of an info area: the chassis type for the chassis
area, the language code otherwise. -/
def areaLangtype (atype : AreaType) (fru : Fru) : Nat :=
  match atype with
  | .chassis_info => fru.chassis.ctype
  | .board_info => fru.board.lang
  | _ => fru.product.lang

/-- Manufacturing date bytes of the board area header (the date block of
encode_info_area in fru_save.c). With tv_auto the current adjusted time,
passed here as now, replaces the stored timestamp; otherwise a timestamp
below the FRU epoch fails with FEBDATE before the all-zero unspecified
test is ever reached. The minute count is truncated to a uint32 and its
low 3 bytes are stored little-endian. C division truncates toward zero,
which Int.tdiv matches. -/
def area_datebytes (now : Timeval) (fru : Fru) : Except FruErr (List Nat) := do
  let tv_toset ←
    if fru.board.tv_auto then pure now
    else if fru.board.tv.sec < fru__datetime_base then throw FruErr.febdate
    else pure fru.board.tv
  if tv_toset.sec > FRU_DATETIME_MAX then throw FruErr.febdate
  let fru_time : Nat :=
    if tv_toset = ⟨0, 0⟩ then 0
    else ((Int.tdiv (tv_toset.sec - fru__datetime_base) 60) % 4294967296).toNat
  pure [fru_time % 256, fru_time / 256 % 256, fru_time / 65536 % 256]

/-- Assembly tail of encode_info_area: the area header (version byte 1, the
blocks byte patched in below, the langtype byte), the date bytes for the
board area, the encoded fields, the 0xC1 terminator, zero padding to an
8-byte multiple, and the checksum overwriting the final padding byte. The
blocks byte counts the terminated and checksummed size in 8-byte blocks and
is written before the checksum is computed; the checksum covers the whole
area with the final byte still zero. -/
def area_assemble (langtype : Nat) (datebytes : List Nat)
    (encoded : List (List Nat)) : List Nat :=
  let content := 1 :: 0 :: langtype :: (datebytes ++ encoded.flatten)
  let bytes := content.length
  let blocks := FRU__BLOCKS (bytes + 2)
  let padding := FRU__BLOCK_ALIGN (bytes + 2) - (bytes + 1)
  let content2 := content.set 1 blocks
  let prebody := content2 ++ FRU__FIELD_TERMINATOR :: List.replicate padding 0
  prebody.dropLast ++ [fru__calc_checksum prebody]

/-- Info area encoder (encode_info_area in fru_save.c), for the chassis,
board and product areas; create_frufile never dispatches the other two area
types here. Each mandatory and custom field runs through fru__encode_field
and contributes its type/length byte and payload. -/
def encode_info_area (now : Timeval) (atype : AreaType) (fru : Fru) :
    Except FruErr (List Nat) :=
  match atype with
  | .internal_use => throw FruErr.feareabadtype
  | .mr => throw FruErr.feareabadtype
  | atype => do
    let datebytes ←
      if atype = .board_info then area_datebytes now fru else pure []
    let encoded ← (mandatoryFields atype fru ++ custFields atype fru).mapM
      (fun f => do
        let ef ← fru__encode_field f.enc f.val
        pure (ef.typelen :: ef.data))
    pure (area_assemble (areaLangtype atype fru) datebytes encoded)

/-- Maximum data size of a raw multirecord record: the len header field is
one byte (FRU__FILE_MRR_MAXDATA). -/
def FRU__FILE_MRR_MAXDATA : Nat := 255

/-- Maximum data size of a management access record after the subtype byte
(FRU__FILE_MR_MGMT_MAXDATA): subtype plus data must fit a record. -/
def FRU__FILE_MR_MGMT_MAXDATA : Nat := 254

/-- Multirecord version field value, always 2 (FRU__MR_VER). -/
def FRU__MR_VER : Nat := 2

/-- Record type id of a Management Access record (FRU_MR_MGMT_ACCESS). -/
def FRU_MR_MGMT_ACCESS : Nat := 3

/-- Encoded multirecord record: the 5-byte header fields of
fru__file_mr_header_t followed by the payload bytes. -/
structure FileMrRec where
  type_id : Nat
  eol_ver : Nat
  len : Nat
  rec_checksum : Nat
  hdr_checksum : Nat
  mdata : List Nat
  deriving DecidableEq, Repr

/-- Pack a blob into a multirecord record (mr_blob2rec in fru_save.c): set
type, version, length and the data checksum. The header checksum stays 0;
encode_mr_record computes it after possibly setting the end-of-list flag. -/
def mr_blob2rec (blob : List Nat) (mtype : Nat) : Except FruErr FileMrRec :=
  if blob.length > FRU__FILE_MRR_MAXDATA then throw FruErr.fe2big
  else pure ⟨mtype, FRU__MR_VER, blob.length, fru__calc_checksum blob, 0, blob⟩

/-- Management access record data minimum lengths per subtype, index
subtype - 1 (fru__mr_mgmt_minlen in fru_common.c). -/
def fru__mr_mgmt_minlen : List Nat := [16, 8, 8, 16, 8, 8, 16]

/-- Management access record data maximum lengths per subtype, index
subtype - 1 (fru__mr_mgmt_maxlen in fru_common.c). -/
def fru__mr_mgmt_maxlen : List Nat := [256, 64, 64, 256, 256, 64, 16]

/-- Pack a management access blob into a record (mgmt_blob2rec in
fru_save.c): check the per-subtype length bounds, prepend the subtype byte
and pack as a Management Access record. -/
def mgmt_blob2rec (blob : List Nat) (subtype : Nat) : Except FruErr FileMrRec :=
  let mn := fru__mr_mgmt_minlen.getD (subtype - 1) 0
  let mx := fru__mr_mgmt_maxlen.getD (subtype - 1) 0
  let len := blob.length
  if mn > len ∨ len > mx ∨ len > FRU__FILE_MR_MGMT_MAXDATA then throw FruErr.fesize
  else mr_blob2rec (subtype :: blob) FRU_MR_MGMT_ACCESS

/-- SMBIOS byte swap of uuid2rec: time_low (bytes 0..3), time_mid (4..5)
and time_hi_and_version (6..7) are read big-endian from the hex string and
stored little-endian, which byte-reverses each of the three fields; the
remaining 8 bytes keep string order. -/
def uuid_swab (l : List Nat) : List Nat :=
  (l.take 4).reverse ++ ((l.drop 4).take 2).reverse
    ++ ((l.drop 6).take 2).reverse ++ l.drop 8

/-- UUID string to a Management Access SystemUUID record (uuid2rec in
fru_save.c): the string must be 36 (dashed) or 32 (plain) characters, is
parsed as relaxed hex with a 16-byte output limit, byte-swapped per SMBIOS
and packed with subtype 7 (FRU_MR_MGMT_SYS_UUID). -/
def uuid2rec (s : List Nat) : Except FruErr FileMrRec := do
  if s.length ≠ 36 ∧ s.length ≠ 32 then throw FruErr.fesize
  let bytes ← fru__hexstr2bin .relaxed 16 s
  mgmt_blob2rec (uuid_swab bytes) 7

/-- Area position argument of fru_enable_area (fru_area_position_t):
first, last, automatic, or after a given area. -/
inductive AreaPos where
  | first
  | last
  | auto
  | area (a : AreaType)
  deriving DecidableEq, Repr

/-- Result triple of the area enable and disable calls: the returned
status, the error registered in fru_errno (none when untouched), and the
resulting fru state. -/
structure EnableRes where
  ok : Bool
  err : Option FruErr
  fru : Fru
  deriving DecidableEq, Repr

/-- Downward scan of fru_enable_area looking for the insertion slot: walks
positions 4 down to 0 carrying new_pos, the automatic candidate slot (none
models the FRU_APOS_AUTO sentinel) and last_pos_atype. Breaks when asked
for the first position and a non-present slot is seen, or when the present
area given as the anchor is found. -/
def enable_scan (fru : Fru) (atype : AreaType) (after : AreaPos) :
    List Nat → Int → Option Int → AreaType → Int × Option Int
  | [], new_pos, anp, _ => (new_pos, anp)
  | i :: rest, new_pos, anp, lpa =>
    let pos_atype := fru.order.getD i .internal_use
    let p := fru.present.get pos_atype
    if after = .first ∧ p = false then (new_pos, anp)
    else if p = true ∧ after = .area pos_atype then (new_pos, anp)
    else
      let hit := (p = false ∨ pos_atype.val ≤ atype.val)
        ∧ ((p = true ∧ lpa.val < pos_atype.val) ∨ (p = false ∧ anp = none))
      let anp2 := if hit then some new_pos else anp
      let lpa2 := if hit then pos_atype else lpa
      enable_scan fru atype after rest ((i : Int) - 1) anp2 lpa2

/-- Area enabler (fru_enable_area in fru_enable_area.c). An already present
area fails with FEAENABLED before any state is touched; an area missing
from the order array is FEINIT. Otherwise the area moves from its slot in
the non-present prefix to the computed slot: the C shift loop plus final
store is an erase at the old position followed by an insert at the new one
when the new position is not before the old, and a plain overwrite
otherwise. A negative new position would make the C code write before the
order array (undefined behaviour, unreachable through the library API);
the model leaves the order array unchanged there. -/
def fru_enable_area (fru : Fru) (atype : AreaType) (after : AreaPos) : EnableRes :=
  if fru.present.get atype then ⟨false, some .feaenabled, fru⟩
  else
    match fru.order.findIdx? (fun a => a = atype) with
    | none => ⟨false, some .feinit, fru⟩
    | some old_pos =>
      let scanned :=
        if after = .last then ((4 : Int), (none : Option Int))
        else enable_scan fru atype after [4, 3, 2, 1, 0] 4 none .internal_use
      let new_pos : Int :=
        if after = .auto ∧ scanned.2.isSome then scanned.2.getD 4 else scanned.1
      if new_pos < 0 then
        ⟨true, none, { fru with present := fru.present.set atype true }⟩
      else
        let np := new_pos.toNat
        let order2 :=
          if old_pos ≤ np then (fru.order.eraseIdx old_pos).insertIdx np atype
          else fru.order.set np atype
        ⟨true, none, { fru with order := order2,
                                present := fru.present.set atype true }⟩

/-- Upward scan of fru_disable_area: the first position whose area is
present or numerically above the disabled area bounds the non-present
prefix; new_pos advances past every slot before it. -/
def disable_scan (fru : Fru) (atype : AreaType) : List Nat → Nat → Nat
  | [], new_pos => new_pos
  | i :: rest, new_pos =>
    let pos_atype := fru.order.getD i .internal_use
    if fru.present.get pos_atype = true ∨ pos_atype.val > atype.val then new_pos
    else disable_scan fru atype rest (i + 1)

/-- Area disabler (fru_disable_area in fru_enable_area.c). On an already
absent area the C code registers FEAENABLED in fru_errno but still returns
true, with no state change. Otherwise the area moves into the non-present
prefix of the order array; the scan stops at the old position at the
latest because the area being disabled is still marked present there, so
the erase-insert form is exact. -/
def fru_disable_area (fru : Fru) (atype : AreaType) : EnableRes :=
  if fru.present.get atype = false then ⟨true, some .feaenabled, fru⟩
  else
    match fru.order.findIdx? (fun a => a = atype) with
    | none => ⟨false, some .feinit, fru⟩
    | some old_pos =>
      let new_pos := disable_scan fru atype [0, 1, 2, 3, 4] 0
      let order2 :=
        if new_pos ≤ old_pos then (fru.order.eraseIdx old_pos).insertIdx new_pos atype
        else fru.order.set new_pos atype
      ⟨true, none, { fru with order := order2,
                              present := fru.present.set atype false }⟩

/-- Multirecord append/insert (fru_add_mr in fru_add_mr.c backed by
fru__add_reclist_entry): the record is inserted before the entry at the
given index, or appended when the index is past the end, and the
multirecord presence flag is set. Allocation failure is not modelled. -/
def fru_add_mr (fru : Fru) (index : Nat) (rec : MrRec) : Option Fru :=
  let idx := min index fru.mr.length
  some { fru with mr := fru.mr.insertIdx idx rec,
                  present := fru.present.set .mr true }

/-- Multirecord delete (fru_delete_mr via mr_operation in fru_mr_ops.c with
op = replace, rec = NULL, type = FRU_MR_ANY): fails with FEADISABLED when
the area is not present, finds the record at the index (FENOREC when there
is none), unlinks it, and clears the presence flag when the list became
empty. -/
def fru_delete_mr (fru : Fru) (index : Nat) : Option Fru :=
  if fru.present.get .mr = false then none
  else if index < fru.mr.length then
    let mr2 := fru.mr.eraseIdx index
    some { fru with mr := mr2,
                    present := if mr2.isEmpty then fru.present.set .mr false
                               else fru.present }
  else none

/-!
Concrete values used by the theorems below.
-/

/-- Empty decoded field. -/
def emptyField : FruField := ⟨.fe_empty, []⟩

/-- All-absent presence. -/
def presenceNone : Presence := ⟨false, false, false, false, false⟩

/-- Default area order as set up by fru_init. -/
def defaultOrder : List AreaType :=
  [.internal_use, .chassis_info, .board_info, .product_info, .mr]

/-- A fru with every string empty, every area absent and the default order;
the chassis type byte is the fru_init default 0x17. -/
def fruEx : Fru :=
  { internal := []
    chassis := ⟨0x17, emptyField, emptyField, []⟩
    board := ⟨0, ⟨0, 0⟩, true, emptyField, emptyField, emptyField, emptyField,
              emptyField, []⟩
    product := ⟨0, emptyField, emptyField, emptyField, emptyField, emptyField,
                emptyField, emptyField, []⟩
    mr := []
    present := presenceNone
    order := defaultOrder }

/-- The fru above with the board area marked present. -/
def fruExBoardOn : Fru := { fruEx with present := presenceNone.set .board_info true }

/-- The fru above with one multirecord and the multirecord area present. -/
def fruExMr1 : Fru :=
  { fruEx with mr := [.empty], present := presenceNone.set .mr true }

/-- Expected result of adding one record to fruEx at index 0. -/
def fruExAdded : Fru :=
  { fruEx with mr := [.mgmt 7 []], present := presenceNone.set .mr true }

/-- Expected result of deleting the only record of fruExMr1. -/
def fruExDeleted : Fru :=
  { fruExMr1 with mr := [], present := presenceNone }

/-- Board area with tv_auto off, the timestamp one minute past the FRU
epoch and language code 25. -/
def boardMin1 : BoardArea :=
  { lang := 25, tv := ⟨820454460, 0⟩, tv_auto := false, mfg := emptyField,
    pname := emptyField, serial := emptyField, pn := emptyField,
    file := emptyField, cust := [] }

/-- Board fru with tv_auto off and the timestamp one minute past the FRU
epoch. -/
def fruBoardMin1 : Fru := { fruEx with board := boardMin1 }

/-- Board fru with tv_auto off and a zero timestamp. -/
def fruBoardTv0 : Fru := { fruEx with board := { boardMin1 with tv := ⟨0, 0⟩ } }

/-- ASCII bytes of the string IPMI. -/
def strIPMI : List Nat := [0x49, 0x50, 0x4D, 0x49]

/-- ASCII bytes of the string 12-34. -/
def strDigitsDash : List Nat := [0x31, 0x32, 0x2D, 0x33, 0x34]

/-- ASCII bytes of the string DEADBEEF. -/
def strDEADBEEF : List Nat := [0x44, 0x45, 0x41, 0x44, 0x42, 0x45, 0x45, 0x46]

/-- ASCII bytes of the string Hello, world. -/
def strHello : List Nat :=
  [0x48, 0x65, 0x6C, 0x6C, 0x6F, 0x2C, 0x20, 0x77, 0x6F, 0x72, 0x6C, 0x64]

/-- ASCII bytes of the dashed UUID string of scenario S3. -/
def uuidStrDashed : List Nat :=
  [0x30, 0x31, 0x32, 0x33, 0x34, 0x35, 0x36, 0x37, 0x2D,
   0x38, 0x39, 0x41, 0x42, 0x2D,
   0x43, 0x44, 0x45, 0x46, 0x2D,
   0x30, 0x31, 0x32, 0x33, 0x2D,
   0x34, 0x35, 0x36, 0x37, 0x38, 0x39, 0x41, 0x42, 0x43, 0x44, 0x45, 0x46]

/-- Uppercase hex digit characters. -/
def isUpHexDigit (c : Nat) : Prop :=
  (0x30 ≤ c ∧ c ≤ 0x39) ∨ (0x41 ≤ c ∧ c ≤ 0x46)

/-- Characters representable in BCD+. -/
def isBcdPlusChar (c : Nat) : Prop :=
  (0x30 ≤ c ∧ c ≤ 0x39) ∨ c = 0x20 ∨ c = 0x2D ∨ c = 0x2E

/-- Value of an uppercase hex digit character. -/
def hexVal (c : Nat) : Nat := if c ≤ 0x39 then c - 0x30 else c - 0x41 + 10

/-- BCD+ nibble value of a representable character. -/
def bcdNibVal (c : Nat) : Nat :=
  if c = 0x20 then 0xA else if c = 0x2D then 0xB else if c = 0x2E then 0xC
  else c - 0x30

/-- In-range values per encoding for the amended round-trip claim C1:
Binary takes a nonempty even-length string of uppercase hex digits of at
most 126 digits (63 encoded bytes); BCD+ takes a nonempty even-length
string of at most 126 digits, spaces, dashes and dots not ending in a
space; 6-bit ASCII takes a nonempty string of at most 84 characters from
[0x30, 0x5F]; Text takes a printable string whose length is not 1 and at
most 63. -/
def inRangeC1 (enc : FieldEnc) (s : List Nat) : Bool :=
  match enc with
  | .fe_binary =>
    s ≠ [] && s.length % 2 = 0 && s.length ≤ 126 &&
      s.all (fun c => (0x30 ≤ c && c ≤ 0x39) || (0x41 ≤ c && c ≤ 0x46))
  | .fe_bcdplus =>
    s ≠ [] && s.length % 2 = 0 && s.length ≤ 126 &&
      s.all (fun c => (0x30 ≤ c && c ≤ 0x39) || c = 0x20 || c = 0x2D || c = 0x2E) &&
      s.getLast? ≠ some 0x20
  | .fe_6bitascii =>
    s ≠ [] && s.length ≤ 84 && s.all (fun c => 0x30 ≤ c && c ≤ 0x5F)
  | .fe_text =>
    s.length ≠ 1 && s.length ≤ 63 && s.all (fun c => 0x20 ≤ c && c ≤ 0x7E)
  | _ => false

/-!
Helper lemmas.
-/

/-- Reading a whole buffer back gives the buffer. -/
theorem bytesAt_self (l : List Nat) : bytesAt l l.length = l := by
  induction l with
  | nil => rfl
  | cons a t ih => simpa [bytesAt] using ih

/-- cut_tail does not change a list that does not end in a space. -/
theorem cut_tail_of_ne (l : List Nat) (h : l.getLast? ≠ some 0x20) :
    cut_tail l = l := by
  unfold cut_tail
  cases hrev : l.reverse with
  | nil =>
    have : l = [] := by simpa using congrArg List.reverse hrev
    simp [this]
  | cons a t =>
    have hl : l.getLast? = some a := by
      rw [← List.head?_reverse, hrev]
      rfl
    have ha : a ≠ 0x20 := by
      intro hcontr
      rw [hcontr] at hl
      exact h hl
    rw [List.dropWhile_cons_of_neg (by simpa using ha)]
    rw [← hrev, List.reverse_reverse]

/-- cut_tail swallows one appended space. -/
theorem cut_tail_append_space (l : List Nat) :
    cut_tail (l ++ [0x20]) = cut_tail l := by
  unfold cut_tail
  rw [List.reverse_append]
  simp [List.dropWhile_cons_of_pos]

/-- fru_hex2nibble on an uppercase hex digit. -/
theorem fru_hex2nibble_ok (c : Nat) (h : isUpHexDigit c) :
    fru_hex2nibble c = .ok (hexVal c) := by
  unfold fru_hex2nibble hexVal
  dsimp only
  rcases h with ⟨h1, h2⟩ | ⟨h1, h2⟩
  · rw [if_neg (show ¬(0x41 ≤ c ∧ c ≤ 0x46) by omega)]
    rw [if_pos (show 0x30 ≤ c ∧ c ≤ 0x39 by omega)]
    rw [if_pos (show c ≤ 0x39 by omega)]
    rfl
  · rw [if_pos (show 0x41 ≤ c ∧ c ≤ 0x46 by omega)]
    rw [if_neg (show ¬(0x30 ≤ c - 0x41 + 0x61 ∧ c - 0x41 + 0x61 ≤ 0x39) by omega)]
    rw [if_pos (show 0x61 ≤ c - 0x41 + 0x61 ∧ c - 0x41 + 0x61 ≤ 0x66 by omega)]
    rw [if_neg (show ¬(c ≤ 0x39) by omega)]
    simp only [pure, Except.pure, Except.ok.injEq]
    omega

/-- Value bound of an uppercase hex digit. -/
theorem hexVal_lt (c : Nat) (h : isUpHexDigit c) : hexVal c < 16 := by
  unfold hexVal
  rcases h with ⟨h1, h2⟩ | ⟨h1, h2⟩ <;> split_ifs <;> omega

/-- nibble2hex inverts hexVal on uppercase hex digits. -/
theorem nibble2hex_hexVal (c : Nat) (h : isUpHexDigit c) :
    nibble2hex (hexVal c) = c := by
  unfold nibble2hex hexVal
  rcases h with ⟨h1, h2⟩ | ⟨h1, h2⟩ <;> split_ifs <;> omega

/-- fru_hex2byte on two uppercase hex digits, and fru__byte2hex as its
inverse. -/
theorem hex_pair_roundtrip (c0 c1 : Nat) (h0 : isUpHexDigit c0)
    (h1 : isUpHexDigit c1) :
    fru_hex2byte c0 c1 = .ok (hexVal c0 * 16 + hexVal c1) ∧
    fru__byte2hex (hexVal c0 * 16 + hexVal c1) = [c0, c1] := by
  have hv0 := hexVal_lt c0 h0
  have hv1 := hexVal_lt c1 h1
  constructor
  · unfold fru_hex2byte
    rw [fru_hex2nibble_ok c0 h0, fru_hex2nibble_ok c1 h1]
    rfl
  · unfold fru__byte2hex
    have e0 : (hexVal c0 * 16 + hexVal c1) / 16 % 16 = hexVal c0 := by omega
    have e1 : (hexVal c0 * 16 + hexVal c1) % 16 = hexVal c1 := by omega
    rw [e0, e1, nibble2hex_hexVal c0 h0, nibble2hex_hexVal c1 h1]

/-- The hex parse loop on an even uppercase-hex string below the size
limit: it succeeds, produces one byte per digit pair, and fru__byte2hex
recovers the digit pairs. -/
theorem hexstr2bin_go_upper (s : List Nat) (size : Nat)
    (hchars : ∀ c ∈ s, isUpHexDigit c) (heven : s.length % 2 = 0)
    (hsize : size + s.length / 2 ≤ 63) :
    ∃ bs, fru__hexstr2bin_go .relaxed 63 s size = .ok bs ∧
      bs.length = s.length / 2 ∧ bs.flatMap fru__byte2hex = s := by
  match s with
  | [] => exact ⟨[], rfl, by simp, by simp⟩
  | [c] => simp at heven
  | c0 :: c1 :: rest =>
    have h0 := hchars c0 (by simp)
    have h1 := hchars c1 (by simp)
    have hrest : ∀ c ∈ rest, isUpHexDigit c := fun c hc => hchars c (by simp [hc])
    have hreven : rest.length % 2 = 0 := by
      simp only [List.length_cons] at heven
      omega
    have hrsize : (size + 1) + rest.length / 2 ≤ 63 := by
      simp only [List.length_cons] at hsize
      omega
    obtain ⟨bs, hgo, hlen, hflat⟩ :=
      hexstr2bin_go_upper rest (size + 1) hrest hreven hrsize
    have hsep : isHexSep c0 = false := by
      unfold isHexSep
      rcases h0 with ⟨ha, hb⟩ | ⟨ha, hb⟩ <;>
      · simp only [Bool.or_eq_false_iff, decide_eq_false_iff_not]
        omega
    have hlt : size < 63 := by
      simp only [List.length_cons] at hsize
      omega
    refine ⟨(hexVal c0 * 16 + hexVal c1) :: bs, ?_, ?_, ?_⟩
    · rw [fru__hexstr2bin_go]
      rw [if_pos (Or.inr hlt)]
      rw [if_neg (by simp [hsep])]
      rw [(hex_pair_roundtrip c0 c1 h0 h1).1]
      simp only [Bind.bind, Except.bind, hgo, pure, Except.pure]
    · simp only [List.length_cons, List.length_cons] at *
      simp [hlen]
      omega
    · simp only [List.flatMap_cons, hflat, (hex_pair_roundtrip c0 c1 h0 h1).2]
      rfl

/-- fru__encode_field on a nonempty value under a specific real encoding is
the relaxed-mode encoder result with the payload trimmed to the length
stored in the type/length byte. -/
theorem fru__encode_field_real_ok (enc : FieldEnc) (s : List Nat)
    (f : FileField) (henc : enc.isReal = true) (hs0 : s.length ≠ 0)
    (hf : encodeReal enc .relaxed s = .ok f) :
    fru__encode_field enc s = .ok (fieldTrim f) := by
  cases enc <;> simp only [FieldEnc.isReal, Bool.false_eq_true] at henc <;>
    simp [fru__encode_field, FieldEnc.isReal, hs0, hf, pure, Except.pure]

/-- Binary round trip: encoding then decoding an in-range Binary field
value gives the value back. -/
theorem roundtrip_binary (s : List Nat) (hne : s ≠ [])
    (heven : s.length % 2 = 0) (hlen : s.length ≤ 126)
    (hchars : ∀ c ∈ s, isUpHexDigit c) :
    (fru__encode_field .fe_binary s).bind fru__decode_field =
      .ok ⟨.fe_binary, s⟩ := by
  obtain ⟨bs, hgo, hblen, hflat⟩ :=
    hexstr2bin_go_upper s 0 hchars heven (by omega)
  have hs0 : s.length ≠ 0 := by
    cases s with
    | nil => exact absurd rfl hne
    | cons a t => simp
  have hb63 : bs.length ≤ 63 := by omega
  have hraw : encodeReal .fe_binary .relaxed s = .ok ⟨FRU__TYPELEN 0 bs.length, bs⟩ := by
    unfold encodeReal encode_binary fru__hexstr2bin
    rw [hgo]
    rfl
  have htl : FRU__TYPELEN 0 bs.length = bs.length := by
    unfold FRU__TYPELEN FRU__FIELDLEN
    omega
  have hfl : FRU__FIELDLEN bs.length = bs.length := by
    unfold FRU__FIELDLEN
    omega
  have htrim : fieldTrim ⟨FRU__TYPELEN 0 bs.length, bs⟩ = ⟨bs.length, bs⟩ := by
    unfold fieldTrim
    dsimp only
    rw [htl, hfl, List.take_length]
  have henc : fru__encode_field .fe_binary s = .ok ⟨bs.length, bs⟩ := by
    rw [fru__encode_field_real_ok .fe_binary s _ rfl hs0 hraw, htrim]
  have htype : FRU__TYPE bs.length = 0 := by
    unfold FRU__TYPE
    omega
  have hdec : fru__decode_field ⟨bs.length, bs⟩ = .ok ⟨.fe_binary, s⟩ := by
    unfold fru__decode_field
    dsimp only
    rw [htype]
    simp only [encFromType]
    unfold decode_binary
    dsimp only
    rw [hfl, bytesAt_self]
    unfold fru__decode_raw_binary FRU_FIELDMAXARRAY
    rw [if_neg (by omega)]
    rw [hflat]
    rfl
  rw [henc]
  simp only [Bind.bind, Except.bind]
  exact hdec

/-- The uint8 sum fold computes the plain sum modulo 256. -/
theorem foldl_mod_add (bs : List Nat) :
    ∀ a : Nat, bs.foldl (fun x y => (x + y) % 256) (a % 256) = (a + bs.sum) % 256 := by
  induction bs with
  | nil => intro a; simp
  | cons b tl ih =>
    intro a
    have h1 : (a % 256 + b) % 256 = (a + b) % 256 := by omega
    calc (b :: tl).foldl (fun x y => (x + y) % 256) (a % 256)
        = tl.foldl (fun x y => (x + y) % 256) ((a + b) % 256) := by
          simp [List.foldl_cons, h1]
      _ = ((a + b) + tl.sum) % 256 := ih (a + b)
      _ = (a + (b :: tl).sum) % 256 := by simp; ring_nf

/-- The checksum is the negated byte sum modulo 256. -/
theorem fru__calc_checksum_eq (bs : List Nat) :
    (fru__calc_checksum bs : Int) = (-(bs.sum : Int)) % 256 := by
  have h := foldl_mod_add bs 0
  simp only [Nat.zero_mod, Nat.zero_add, zero_add] at h
  unfold fru__calc_checksum
  rw [h]
  dsimp only
  split <;> omega

/-- The checksum is a byte. -/
theorem fru__calc_checksum_lt (bs : List Nat) : fru__calc_checksum bs < 256 := by
  have h := fru__calc_checksum_eq bs
  omega

/-- Every assembled info area sums to zero modulo 256: the body ends in at
least one zero padding byte, the last of which is replaced by the checksum
of the whole body. -/
theorem sum_area_assemble (lt : Nat) (db : List Nat) (enc : List (List Nat)) :
    (area_assemble lt db enc).sum % 256 = 0 := by
  unfold area_assemble
  set content2 := (1 :: 0 :: lt :: (db ++ enc.flatten)).set 1
    (FRU__BLOCKS ((1 :: 0 :: lt :: (db ++ enc.flatten)).length + 2)) with hcontent2
  set padding := FRU__BLOCK_ALIGN ((1 :: 0 :: lt :: (db ++ enc.flatten)).length + 2)
    - ((1 :: 0 :: lt :: (db ++ enc.flatten)).length + 1) with hpad
  have hpad1 : 1 ≤ padding := by
    rw [hpad]
    unfold FRU__BLOCK_ALIGN FRU__BLOCKS
    omega
  set prebody := content2 ++ FRU__FIELD_TERMINATOR :: List.replicate padding 0
    with hprebody
  have hrep : List.replicate padding 0 = List.replicate (padding - 1) 0 ++ [0] := by
    rcases Nat.exists_eq_add_of_le hpad1 with ⟨k, hk⟩
    rw [hk]
    simp [Nat.add_comm 1 k, List.replicate_succ']
  have hpre : prebody
      = (content2 ++ FRU__FIELD_TERMINATOR :: List.replicate (padding - 1) 0)
        ++ [(0 : Nat)] := by
    rw [hprebody, hrep]
    simp
  have hdrop : prebody.dropLast
      = content2 ++ FRU__FIELD_TERMINATOR :: List.replicate (padding - 1) 0 := by
    rw [hpre]
    exact List.dropLast_concat
  have hsum : prebody.dropLast.sum = prebody.sum := by
    rw [hdrop]
    conv_rhs => rw [hpre]
    simp
  have hck := fru__calc_checksum_eq prebody
  have hout : (prebody.dropLast ++ [fru__calc_checksum prebody]).sum
      = prebody.dropLast.sum + fru__calc_checksum prebody := by simp
  rw [hout, hsum]
  omega

/-- Inversion of a successful Except bind. -/
theorem except_bind_ok {α β : Type} {x : Except FruErr α} {f : α → Except FruErr β}
    {v : β} (h : (x >>= f) = .ok v) : ∃ a, x = .ok a ∧ f a = .ok v := by
  cases x with
  | error e => simp [Bind.bind, Except.bind] at h
  | ok a => exact ⟨a, rfl, by simpa [Bind.bind, Except.bind] using h⟩

/-- bcd_nibble on a representable character. -/
theorem bcd_nibble_ok (c : Nat) (h : isBcdPlusChar c) :
    bcd_nibble c = .ok (bcdNibVal c) := by
  unfold bcd_nibble bcdNibVal
  rcases h with ⟨h1, h2⟩ | h | h | h
  · rw [if_neg (by omega), if_neg (by omega), if_neg (by omega),
      if_pos (by omega), if_neg (by omega), if_neg (by omega),
      if_neg (by omega)]
    rfl
  · subst h
    rfl
  · subst h
    rfl
  · subst h
    rfl

/-- BCD+ nibble values stay below 16. -/
theorem bcdNibVal_lt (c : Nat) (h : isBcdPlusChar c) : bcdNibVal c < 16 := by
  unfold bcdNibVal
  rcases h with ⟨h1, h2⟩ | h | h | h <;> split_ifs <;> omega

/-- bcdChar inverts bcdNibVal on representable characters. -/
theorem bcdChar_bcdNibVal (c : Nat) (h : isBcdPlusChar c) :
    bcdChar (bcdNibVal c) = c := by
  unfold bcdChar bcdNibVal
  rcases h with ⟨h1, h2⟩ | h | h | h <;> subst_eqs <;> split_ifs <;> omega

/-- The BCD+ pack loop on an even in-range string succeeds, emits one byte
per character pair, and bcd_unpack recovers the characters. -/
theorem bcd_pack_unpack (s : List Nat) (stale : Nat)
    (hchars : ∀ c ∈ s, isBcdPlusChar c) (heven : s.length % 2 = 0) :
    ∃ bs, bcd_pack s stale = .ok bs ∧ bs.length = s.length / 2 ∧
      bcd_unpack bs.length bs = s := by
  match s with
  | [] => exact ⟨[], rfl, by simp, by simp [bcd_unpack]⟩
  | [a] => simp at heven
  | a :: b :: rest =>
    have ha := hchars a (by simp)
    have hb := hchars b (by simp)
    have hrest : ∀ c ∈ rest, isBcdPlusChar c := fun c hc => hchars c (by simp [hc])
    have hreven : rest.length % 2 = 0 := by
      simp only [List.length_cons] at heven
      omega
    obtain ⟨bs, hpk, hlen, hup⟩ := bcd_pack_unpack rest (bcdNibVal b) hrest hreven
    refine ⟨(bcdNibVal a * 16 + bcdNibVal b) :: bs, ?_, ?_, ?_⟩
    · rw [bcd_pack]
      rw [bcd_nibble_ok a ha, bcd_nibble_ok b hb]
      simp only [Bind.bind, Except.bind, hpk, pure, Except.pure]
    · simp only [List.length_cons, hlen]
      omega
    · have hva := bcdNibVal_lt a ha
      have hvb := bcdNibVal_lt b hb
      have e0 : (bcdNibVal a * 16 + bcdNibVal b) / 16 % 16 = bcdNibVal a := by omega
      have e1 : (bcdNibVal a * 16 + bcdNibVal b) % 16 = bcdNibVal b := by omega
      simp only [List.length_cons, bcd_unpack, List.headD, List.tail]
      rw [e0, e1, bcdChar_bcdNibVal a ha, bcdChar_bcdNibVal b hb]
      rw [hup]

/-- BCD+ round trip: encoding then decoding an in-range BCD+ field value
not ending in a space gives the value back. -/
theorem roundtrip_bcdplus (s : List Nat) (hne : s ≠ [])
    (heven : s.length % 2 = 0) (hlen : s.length ≤ 126)
    (hchars : ∀ c ∈ s, isBcdPlusChar c) (hlast : s.getLast? ≠ some 0x20) :
    (fru__encode_field .fe_bcdplus s).bind fru__decode_field =
      .ok ⟨.fe_bcdplus, s⟩ := by
  obtain ⟨bs, hpk, hblen, hup⟩ := bcd_pack_unpack s 0 hchars heven
  have hs0 : s.length ≠ 0 := by
    cases s with
    | nil => exact absurd rfl hne
    | cons a t => simp
  have hb63 : bs.length ≤ 63 := by omega
  have hl2 : (s.length + 1) / 2 = bs.length := by omega
  have hraw : encodeReal .fe_bcdplus .relaxed s
      = .ok ⟨FRU__TYPELEN 1 bs.length, bs⟩ := by
    unfold encodeReal encode_bcdplus
    dsimp only
    rw [hl2]
    rw [if_neg (show ¬(bs.length > FRU__FIELDLEN bs.length) by
      unfold FRU__FIELDLEN
      omega)]
    rw [hpk]
    rfl
  have htl : FRU__TYPELEN 1 bs.length = 64 + bs.length := by
    unfold FRU__TYPELEN FRU__FIELDLEN
    omega
  have hfl : FRU__FIELDLEN (64 + bs.length) = bs.length := by
    unfold FRU__FIELDLEN
    omega
  have htrim : fieldTrim ⟨FRU__TYPELEN 1 bs.length, bs⟩ = ⟨64 + bs.length, bs⟩ := by
    unfold fieldTrim
    dsimp only
    rw [htl, hfl, List.take_length]
  have henc : fru__encode_field .fe_bcdplus s = .ok ⟨64 + bs.length, bs⟩ := by
    rw [fru__encode_field_real_ok .fe_bcdplus s _ rfl hs0 hraw, htrim]
  have htype : FRU__TYPE (64 + bs.length) = 1 := by
    unfold FRU__TYPE
    omega
  have hdec : fru__decode_field ⟨64 + bs.length, bs⟩ = .ok ⟨.fe_bcdplus, s⟩ := by
    unfold fru__decode_field
    dsimp only
    rw [htype]
    simp only [encFromType]
    unfold decode_bcdplus
    dsimp only
    rw [hfl, hup]
    rw [cut_tail_of_ne s hlast]
    rfl
  rw [henc]
  simp only [Bind.bind, Except.bind]
  exact hdec

/-- six_of_char on a character from [0x30, 0x5F] yields the character
minus the 6-bit base 0x20. -/
theorem six_of_char_ok (c : Nat) (h1 : 0x30 ≤ c) (h2 : c ≤ 0x5F) :
    six_of_char c = .ok (c - 32) := by
  unfold six_of_char
  rw [if_pos (show c < 128 by omega)]
  dsimp only
  have hcs : ((c : Int) - 32) % 256 = (c : Int) - 32 := by omega
  rw [hcs]
  rw [if_pos (show (c : Int) - 32 < 128 by omega)]
  rw [if_neg (show ¬((c : Int) - 32 > 63) by omega)]
  have h64 : ((c : Int) - 32) % 64 = (c : Int) - 32 := by omega
  rw [h64]
  simp only [pure, Except.pure, Except.ok.injEq]
  omega

/-- A string over [0x30, 0x5F] cannot end in a space. -/
theorem getLast?_ne_space (s : List Nat) (h : ∀ c ∈ s, 0x30 ≤ c ∧ c ≤ 0x5F) :
    s.getLast? ≠ some 0x20 := by
  intro hcontr
  have hmem : (0x20 : Nat) ∈ s.getLast? := by
    rw [hcontr]
    rfl
  rcases List.mem_getLast?_eq_getLast hmem with ⟨hne, heq⟩
  have : (0x20 : Nat) ∈ s := heq ▸ List.getLast_mem hne
  have := h _ this
  omega

/-- The 6-bit pack loop on a string over [0x30, 0x5F] succeeds, and the
unpack loop recovers the characters, plus one trailing space when the
length is 3 modulo 4 (the padding bits of the last byte decode to the
6-bit value 0). -/
theorem pack6_unpack6 (s : List Nat)
    (hchars : ∀ c ∈ s, 0x30 ≤ c ∧ c ≤ 0x5F) :
    ∃ bs, pack6 s = .ok bs ∧ bs.length = (3 * s.length + 3) / 4 ∧
      unpack6 ((3 * s.length + 3) / 4 * 4 / 3) bs
        = s ++ (if s.length % 4 = 3 then [0x20] else []) := by
  match s with
  | [] => exact ⟨[], rfl, by simp, by simp [unpack6]⟩
  | [c0] =>
    obtain ⟨ha1, ha2⟩ := hchars c0 (by simp)
    refine ⟨[c0 - 32], ?_, by simp, ?_⟩
    · rw [pack6, six_of_char_ok c0 ha1 ha2]
      rfl
    · have hcnt : (3 * ([c0] : List Nat).length + 3) / 4 * 4 / 3 = 1 := by simp
      rw [hcnt, if_neg (by simp)]
      rw [unpack6, if_neg (show ¬(c0 - 32 = 0) by omega)]
      simp only [List.cons.injEq, List.append_nil, and_true]
      omega
  | [c0, c1] =>
    obtain ⟨ha1, ha2⟩ := hchars c0 (by simp)
    obtain ⟨hb1, hb2⟩ := hchars c1 (by simp)
    refine ⟨[c0 - 32 + (c1 - 32) % 4 * 64, (c1 - 32) / 4], ?_, by simp, ?_⟩
    · rw [pack6, six_of_char_ok c0 ha1 ha2, six_of_char_ok c1 hb1 hb2]
      rfl
    · have hcnt : (3 * ([c0, c1] : List Nat).length + 3) / 4 * 4 / 3 = 2 := by simp
      rw [hcnt, if_neg (by simp)]
      rw [unpack6, if_neg (show ¬(c0 - 32 + (c1 - 32) % 4 * 64 = 0) by omega)]
      simp only [List.headD, List.cons.injEq, List.append_nil, and_true]
      constructor
      · omega
      · omega
  | [c0, c1, c2] =>
    obtain ⟨ha1, ha2⟩ := hchars c0 (by simp)
    obtain ⟨hb1, hb2⟩ := hchars c1 (by simp)
    obtain ⟨hc1, hc2⟩ := hchars c2 (by simp)
    refine ⟨[c0 - 32 + (c1 - 32) % 4 * 64,
             (c1 - 32) / 4 + (c2 - 32) % 16 * 16, (c2 - 32) / 16], ?_, by simp, ?_⟩
    · rw [pack6, six_of_char_ok c0 ha1 ha2, six_of_char_ok c1 hb1 hb2,
        six_of_char_ok c2 hc1 hc2]
      rfl
    · have hcnt : (3 * ([c0, c1, c2] : List Nat).length + 3) / 4 * 4 / 3 = 0 + 4 := by
        simp
      rw [hcnt, if_pos (by simp)]
      rw [unpack6]
      rw [if_neg (show ¬(c0 - 32 + (c1 - 32) % 4 * 64 = 0) by omega)]
      dsimp only [List.headD, List.drop]
      rw [if_neg (show ¬((c1 - 32) / 4 + (c2 - 32) % 16 * 16 = 0) by omega)]
      rw [if_neg (show ¬((c2 - 32) / 16 = 0) by omega)]
      rw [unpack6]
      simp only [List.cons_append, List.nil_append, List.cons.injEq, and_true]
      refine ⟨by omega, by omega, by omega, by omega⟩
  | c0 :: c1 :: c2 :: c3 :: rest =>
    obtain ⟨ha1, ha2⟩ := hchars c0 (by simp)
    obtain ⟨hb1, hb2⟩ := hchars c1 (by simp)
    obtain ⟨hc1, hc2⟩ := hchars c2 (by simp)
    obtain ⟨hd1, hd2⟩ := hchars c3 (by simp)
    have hrest : ∀ c ∈ rest, 0x30 ≤ c ∧ c ≤ 0x5F := fun c hc =>
      hchars c (by simp [hc])
    obtain ⟨bs, hpk, hlen, hup⟩ := pack6_unpack6 rest hrest
    refine ⟨(c0 - 32 + (c1 - 32) % 4 * 64) ::
            ((c1 - 32) / 4 + (c2 - 32) % 16 * 16) ::
            ((c2 - 32) / 16 + (c3 - 32) * 4) :: bs, ?_, ?_, ?_⟩
    · rw [pack6, six_of_char_ok c0 ha1 ha2, six_of_char_ok c1 hb1 hb2,
        six_of_char_ok c2 hc1 hc2, six_of_char_ok c3 hd1 hd2]
      simp only [Bind.bind, Except.bind, hpk, pure, Except.pure]
    · simp only [List.length_cons, hlen]
      omega
    · have hcount : (3 * (c0 :: c1 :: c2 :: c3 :: rest).length + 3) / 4 * 4 / 3
          = (3 * rest.length + 3) / 4 * 4 / 3 + 4 := by
        simp only [List.length_cons]
        omega
      rw [hcount]
      rw [unpack6]
      rw [if_neg (show ¬(c0 - 32 + (c1 - 32) % 4 * 64 = 0) by omega)]
      dsimp only [List.headD, List.drop]
      rw [if_neg (show ¬((c1 - 32) / 4 + (c2 - 32) % 16 * 16 = 0) by omega)]
      rw [if_neg (show ¬((c2 - 32) / 16 + (c3 - 32) * 4 = 0) by omega)]
      rw [hup]
      have hpads : (if (c0 :: c1 :: c2 :: c3 :: rest).length % 4 = 3
            then ([0x20] : List Nat) else [])
          = (if rest.length % 4 = 3 then [0x20] else []) := by
        simp only [List.length_cons]
        by_cases hm : rest.length % 4 = 3
        · rw [if_pos hm, if_pos (by omega)]
        · rw [if_neg hm, if_neg (by omega)]
      rw [hpads]
      simp only [List.cons_append, List.cons.injEq]
      refine ⟨by omega, by omega, by omega, by omega, by trivial⟩

/-- Six-bit ASCII round trip: encoding then decoding an in-range 6-bit
field value gives the value back. -/
theorem roundtrip_6bit (s : List Nat) (hne : s ≠ []) (hlen : s.length ≤ 84)
    (hchars : ∀ c ∈ s, 0x30 ≤ c ∧ c ≤ 0x5F) :
    (fru__encode_field .fe_6bitascii s).bind fru__decode_field =
      .ok ⟨.fe_6bitascii, s⟩ := by
  obtain ⟨bs, hpk, hblen, hup⟩ := pack6_unpack6 s hchars
  have hs0 : s.length ≠ 0 := by
    cases s with
    | nil => exact absurd rfl hne
    | cons a t => simp
  have hb63 : bs.length ≤ 63 := by omega
  have hblen' : bs.length = (s.length * 3 + 3) / 4 := by omega
  have hraw : encodeReal .fe_6bitascii .relaxed s
      = .ok ⟨FRU__TYPELEN 2 bs.length, bs⟩ := by
    unfold encodeReal encode_6bit
    dsimp only
    rw [← hblen']
    rw [if_neg (show ¬(bs.length > FRU__FIELDLEN bs.length) by
      unfold FRU__FIELDLEN
      omega)]
    rw [hpk]
    rfl
  have htl : FRU__TYPELEN 2 bs.length = 128 + bs.length := by
    unfold FRU__TYPELEN FRU__FIELDLEN
    omega
  have hfl : FRU__FIELDLEN (128 + bs.length) = bs.length := by
    unfold FRU__FIELDLEN
    omega
  have htrim : fieldTrim ⟨FRU__TYPELEN 2 bs.length, bs⟩ = ⟨128 + bs.length, bs⟩ := by
    unfold fieldTrim
    dsimp only
    rw [htl, hfl, List.take_length]
  have henc : fru__encode_field .fe_6bitascii s = .ok ⟨128 + bs.length, bs⟩ := by
    rw [fru__encode_field_real_ok .fe_6bitascii s _ rfl hs0 hraw, htrim]
  have htype : FRU__TYPE (128 + bs.length) = 2 := by
    have h63 := hb63
    clear hfl htl htrim henc hraw hup hblen hblen' hpk hchars hs0 hne hlen hb63
    unfold FRU__TYPE
    omega
  have hcut : cut_tail (s ++ (if s.length % 4 = 3 then [0x20] else [])) = s := by
    by_cases hm : s.length % 4 = 3
    · rw [if_pos hm, cut_tail_append_space,
        cut_tail_of_ne s (getLast?_ne_space s hchars)]
    · rw [if_neg hm, List.append_nil,
        cut_tail_of_ne s (getLast?_ne_space s hchars)]
  have hdec : fru__decode_field ⟨128 + bs.length, bs⟩ = .ok ⟨.fe_6bitascii, s⟩ := by
    unfold fru__decode_field
    dsimp only
    rw [htype]
    simp only [encFromType]
    unfold decode_6bit
    dsimp only
    rw [hfl]
    rw [hblen, hup, hcut]
    rfl
  rw [henc]
  simp only [Bind.bind, Except.bind]
  exact hdec

/-- text_collect on a fully printable string copies the string. -/
theorem text_collect_all (s : List Nat) (h : ∀ c ∈ s, 0x20 ≤ c ∧ c ≤ 0x7E) :
    text_collect s.length s = .ok s := by
  induction s with
  | nil => rfl
  | cons a t ih =>
    obtain ⟨h1, h2⟩ := h a (by simp)
    have hp : isPrintByte a = true := by
      unfold isPrintByte
      simp only [Bool.and_eq_true, decide_eq_true_eq]
      omega
    have ht : ∀ c ∈ t, 0x20 ≤ c ∧ c ≤ 0x7E := fun c hc => h c (by simp [hc])
    rw [show (a :: t).length = t.length + 1 from rfl, text_collect]
    dsimp only [List.headD, List.tail]
    rw [if_pos hp]
    rw [ih ht]
    rfl

/-- Text round trip: encoding then decoding a printable value whose length
is not 1 (and at most 63) gives the value back. -/
theorem roundtrip_text (s : List Nat) (hlen1 : s.length ≠ 1)
    (hlen : s.length ≤ 63) (hchars : ∀ c ∈ s, 0x20 ≤ c ∧ c ≤ 0x7E) :
    (fru__encode_field .fe_text s).bind fru__decode_field =
      .ok ⟨.fe_text, s⟩ := by
  by_cases hnil : s.length = 0
  · have : s = [] := List.length_eq_zero.mp hnil
    subst this
    decide
  · have hs2 : 2 ≤ s.length := by omega
    have e64 : s.length % 64 = s.length := by omega
    have eA : FRU__FIELDLEN s.length = s.length := by
      unfold FRU__FIELDLEN
      omega
    have eB : FRU__TYPELEN 3 s.length = 192 + s.length := by
      unfold FRU__TYPELEN FRU__FIELDLEN
      omega
    have eC : FRU__FIELD_TERMINATOR = 193 := by decide
    have eD : FRU__FIELDLEN (192 + s.length) = s.length := by
      unfold FRU__FIELDLEN
      omega
    have hraw : encodeReal .fe_text .relaxed s = .ok ⟨192 + s.length, s⟩ := by
      unfold encodeReal encode_text
      dsimp only
      rw [eA]
      rw [if_neg (show ¬(s.length > s.length) by omega)]
      rw [eB, eC]
      rw [if_neg (show ¬(192 + s.length = 193) by omega)]
      rw [eD]
      rw [text_collect_all s hchars]
      rfl
    have hs0 : s.length ≠ 0 := hnil
    have hfl : FRU__FIELDLEN (192 + s.length) = s.length := by
      unfold FRU__FIELDLEN
      omega
    have htrim : fieldTrim ⟨192 + s.length, s⟩ = ⟨192 + s.length, s⟩ := by
      unfold fieldTrim
      dsimp only
      rw [hfl, List.take_length]
    have henc : fru__encode_field .fe_text s = .ok ⟨192 + s.length, s⟩ := by
      rw [fru__encode_field_real_ok .fe_text s _ rfl hs0 hraw, htrim]
    have htype : FRU__TYPE (192 + s.length) = 3 := by
      have h63 := hlen
      clear hraw htrim henc hfl hchars hlen1 hnil hs2 e64 hs0 hlen
      unfold FRU__TYPE
      omega
    have hdec : fru__decode_field ⟨192 + s.length, s⟩ = .ok ⟨.fe_text, s⟩ := by
      unfold fru__decode_field
      dsimp only
      rw [htype]
      simp only [encFromType]
      unfold decode_text
      dsimp only
      rw [hfl, bytesAt_self]
      rfl
    rw [henc]
    simp only [Bind.bind, Except.bind]
    exact hdec

/-!
Claim theorems.
-/

/-- C1 counterexample: the one-digit value 1 is in range for BCD+ and its
encoded length is 1 byte, yet encoding and decoding it yields the string
10, not 1: the lone trailing character is packed with the stale low nibble
(initially 0) of the packing loop, which decodes as the digit 0 and is not
a space, so cut_tail does not remove it. -/
theorem c1_counterexample :
    (fru__encode_field .fe_bcdplus [0x31]).bind fru__decode_field
      = .ok ⟨.fe_bcdplus, [0x31, 0x30]⟩ ∧
    ([0x31, 0x30] : List Nat) ≠ [0x31] := by decide

/-- C1 amended: encoding then decoding returns the same encoding and value
for every field whose value is in range for its real encoding in the
following sense: Binary takes a nonempty even-length string of uppercase
hex digits without separators, at most 126 digits; BCD+ takes a nonempty
even-length string over digits, space, dash and dot, at most 126
characters, not ending in a space; 6-bit ASCII takes a nonempty string of
at most 84 characters from [0x30, 0x5F]; Text takes a printable string
whose length is not 1 and at most 63. (The unamended claim fails for
odd-length BCD+ values, lowercase or separated hex, values with trailing
spaces, strings with characters outside [0x30, 0x5F] whose packed 6-bit
bytes contain a zero, and one-character Text values.) -/
theorem c1_field_roundtrip (enc : FieldEnc) (s : List Nat)
    (h : inRangeC1 enc s = true) :
    (fru__encode_field enc s).bind fru__decode_field = .ok ⟨enc, s⟩ := by
  cases enc with
  | fe_binary =>
    simp only [inRangeC1, Bool.and_eq_true, List.all_eq_true, decide_eq_true_eq,
      ne_eq, Bool.or_eq_true] at h
    obtain ⟨⟨⟨hne, heven⟩, hlen⟩, hchars⟩ := h
    refine roundtrip_binary s (by simpa using hne) heven hlen ?_
    intro c hc
    have := hchars c hc
    unfold isUpHexDigit
    tauto
  | fe_bcdplus =>
    simp only [inRangeC1, Bool.and_eq_true, List.all_eq_true, decide_eq_true_eq,
      ne_eq, Bool.or_eq_true] at h
    obtain ⟨⟨⟨⟨hne, heven⟩, hlen⟩, hchars⟩, hlast⟩ := h
    refine roundtrip_bcdplus s (by simpa using hne) heven hlen ?_
      (by simpa using hlast)
    intro c hc
    have := hchars c hc
    unfold isBcdPlusChar
    tauto
  | fe_6bitascii =>
    simp only [inRangeC1, Bool.and_eq_true, List.all_eq_true, decide_eq_true_eq,
      ne_eq] at h
    obtain ⟨⟨hne, hlen⟩, hchars⟩ := h
    exact roundtrip_6bit s (by simpa using hne) hlen hchars
  | fe_text =>
    simp only [inRangeC1, Bool.and_eq_true, List.all_eq_true, decide_eq_true_eq,
      ne_eq] at h
    obtain ⟨⟨hlen1, hlen⟩, hchars⟩ := h
    exact roundtrip_text s hlen1 hlen hchars
  | fe_empty => simp [inRangeC1] at h
  | fe_auto => simp [inRangeC1] at h
  | fe_preserve => simp [inRangeC1] at h

/-- C1 witness: the 6-bit ASCII value IPMI is in range and round-trips. -/
theorem c1_witness :
    inRangeC1 .fe_6bitascii strIPMI = true ∧
      (fru__encode_field .fe_6bitascii strIPMI).bind fru__decode_field
        = .ok ⟨.fe_6bitascii, strIPMI⟩ :=
  ⟨by decide, c1_field_roundtrip .fe_6bitascii strIPMI (by decide)⟩

/-- C2: fru__calc_checksum returns the negated byte sum modulo 256, a value
in [0, 255], and every info area produced by encode_info_area sums to zero
modulo 256 including the stored checksum byte. -/
theorem c2_checksum_and_area_sum :
    (∀ bs : List Nat, fru__calc_checksum bs < 256 ∧
      (fru__calc_checksum bs : Int) = (-(bs.sum : Int)) % 256) ∧
    (∀ (now : Timeval) (atype : AreaType) (fru : Fru) (out : List Nat),
      encode_info_area now atype fru = .ok out → out.sum % 256 = 0) := by
  constructor
  · intro bs
    exact ⟨fru__calc_checksum_lt bs, fru__calc_checksum_eq bs⟩
  · intro now atype fru out h
    cases atype <;> unfold encode_info_area at h
    case internal_use => simp [throw, throwThe, MonadExceptOf.throw] at h
    case mr => simp [throw, throwThe, MonadExceptOf.throw] at h
    all_goals
      rcases except_bind_ok h with ⟨db, hdb, h2⟩
      rcases except_bind_ok h2 with ⟨enc, henc, h3⟩
      simp only [pure, Except.pure, Except.ok.injEq] at h3
      rw [← h3]
      exact sum_area_assemble _ _ _

/-- C2 witness: the checksum law applied to the encoding of a concrete
chassis area with empty fields. -/
theorem c2_witness :
    ([1, 1, 23, 192, 192, 193, 0, 166] : List Nat).sum % 256 = 0 :=
  c2_checksum_and_area_sum.2 ⟨0, 0⟩ .chassis_info fruEx
    [1, 1, 23, 192, 192, 193, 0, 166] (by decide)

/-- C3: encoding the Management Access SystemUUID record from the canonical
UUID string stores the record type 0x03, length 17 (subtype byte plus 16
payload bytes) and exactly the payload bytes 67 45 23 01 AB 89 EF CD 01 23
45 67 89 AB CD EF after the subtype byte: the first three UUID fields are
byte-swapped to little-endian per SMBIOS, the rest keeps string order. -/
theorem c3_uuid_record :
    (uuid2rec uuidStrDashed).map (fun r => (r.type_id, r.len, r.mdata)) =
      .ok (3, 17, [0x07, 0x67, 0x45, 0x23, 0x01, 0xAB, 0x89, 0xEF, 0xCD,
                   0x01, 0x23, 0x45, 0x67, 0x89, 0xAB, 0xCD, 0xEF]) := by decide

/-- C4 counterexample: encoding an Empty field emits the single byte 0xC0
(FRU__TYPELEN(TEXT, 0)), not the byte 0x00 stated by the claim. -/
theorem c4_counterexample :
    fru__encode_field .fe_empty [] = .ok ⟨0xC0, []⟩ ∧ (0xC0 : Nat) ≠ 0x00 := by
  decide

/-- C4 amended: encoding a field whose value is the empty string (under any
real encoding or Auto) or whose encoding is Empty emits exactly one
type/length byte with value 0xC0 and no payload bytes. -/
theorem c4_empty_field (enc : FieldEnc) (s : List Nat)
    (h : enc = .fe_empty ∨ (s = [] ∧ (enc = .fe_auto ∨ enc.isReal = true))) :
    fru__encode_field enc s = .ok ⟨0xC0, []⟩ := by
  rcases h with h | ⟨hs, h⟩
  · subst h
    simp [fru__encode_field, FieldEnc.isReal, FRU__FIELD_EMPTY, FRU__TYPELEN,
      FRU__FIELDLEN, pure, Except.pure]
  · subst hs
    rcases h with h | h
    · subst h
      simp [fru__encode_field, FieldEnc.isReal, FRU__FIELD_EMPTY, FRU__TYPELEN,
        FRU__FIELDLEN, pure, Except.pure]
    · cases enc <;> simp_all [FieldEnc.isReal] <;>
        simp [fru__encode_field, FieldEnc.isReal, FRU__FIELD_EMPTY, FRU__TYPELEN,
          FRU__FIELDLEN, pure, Except.pure]

/-- C4 witness: the empty Text value encodes to the single byte 0xC0. -/
theorem c4_witness :
    FieldEnc.isReal .fe_text = true ∧
      fru__encode_field .fe_text [] = .ok ⟨0xC0, []⟩ :=
  ⟨rfl, c4_empty_field .fe_text [] (Or.inr ⟨rfl, Or.inr rfl⟩)⟩

/-- C5: encoding the one-character Text string x fails with FENONPRINT
instead of succeeding with a NUL-padded length-2 field: after upgrading the
type/length byte from 0xC1 to 0xC2 the copy loop runs isprint on the string
NUL terminator it is about to copy and bails out, contradicting the comment
in encode_text that the NUL byte is to be stored. -/
theorem c5_one_char_text_fails :
    fru__encode_field .fe_text [0x78] = .error .fenonprint := by decide

/-- C6 counterexample: with Auto the input 12-34 is encoded as 6-bit ASCII
with encoded length 4 (the 6-bit encoder accepts digits and dashes and is
tried first), not as BCD+ with length 3 as the claim states. -/
theorem c6_counterexample :
    (fru__encode_field .fe_auto strDigitsDash).map
      (fun f => (FRU__TYPE f.typelen, FRU__FIELDLEN f.typelen)) = .ok (2, 4) ∧
    ((2 : Nat), (4 : Nat)) ≠ ((1 : Nat), (3 : Nat)) := by decide

/-- C6 amended: with Auto the encoder selects 6-bit ASCII with encoded
length 3 for IPMI, 6-bit ASCII with encoded length 4 for 12-34, 6-bit ASCII
with encoded length 6 for DEADBEEF, and Text for Hello, world. -/
theorem c6_auto_selection :
    fru__encode_field .fe_auto strIPMI = .ok ⟨0x83, [0x29, 0xDC, 0xA6]⟩ ∧
    fru__encode_field .fe_auto strDigitsDash =
      .ok ⟨0x84, [0x91, 0xD4, 0x4C, 0x14]⟩ ∧
    fru__encode_field .fe_auto strDEADBEEF =
      .ok ⟨0x86, [0x64, 0x19, 0x92, 0x62, 0x59, 0x9A]⟩ ∧
    fru__encode_field .fe_auto strHello = .ok ⟨0xCC, strHello⟩ := by decide

/-- C7 counterexample: a Text field whose payload bytes 0x01 0x02 are not
printable decodes successfully and returns those bytes; the decoder does
not fail with NonPrint. -/
theorem c7_counterexample :
    fru__decode_field ⟨0xC2, [0x01, 0x02]⟩ = .ok ⟨.fe_text, [0x01, 0x02]⟩ := by
  decide

/-- C7 amended: the field decoder performs no printability check at all on
Text fields: decoding always succeeds and returns the raw payload bytes
(the C source carries a TODO acknowledging the missing check). -/
theorem c7_text_decode_raw (f : FileField) (h : FRU__TYPE f.typelen = 3) :
    fru__decode_field f = .ok ⟨.fe_text, bytesAt f.data (FRU__FIELDLEN f.typelen)⟩ := by
  unfold fru__decode_field
  rw [h]
  simp [encFromType, decode_text, pure, Except.pure]

/-- C7 witness: a Text field with non-printable bytes, decoded raw. -/
theorem c7_witness :
    FRU__TYPE 0xC5 = 3 ∧
      fru__decode_field ⟨0xC5, [1, 2, 3, 255, 0]⟩ =
        .ok ⟨.fe_text, [1, 2, 3, 255, 0]⟩ :=
  ⟨by decide, c7_text_decode_raw ⟨0xC5, [1, 2, 3, 255, 0]⟩ (by decide)⟩

/-- C8: the board timestamp is stored as minutes since the 1996-01-01T00:00
epoch in 3 little-endian bytes, so epoch plus one minute gives mfgdate
01 00 00; but the save of a board with tv_auto false and tv = 0 does not
produce the unspecified value 00 00 00 as the claim states: it fails with
FEBDATE, because the range check sec < base runs before the tv == {0,0}
test and makes the FRU__DATE_UNSPECIFIED branch unreachable. -/
theorem c8_board_date :
    (encode_info_area ⟨0, 0⟩ .board_info fruBoardMin1).map
      (fun l => (l.drop 3).take 3) = .ok [1, 0, 0] ∧
    encode_info_area ⟨0, 0⟩ .board_info fruBoardTv0 = .error .febdate := by
  decide

/-- C9 counterexample: disabling the already absent board area of a fresh
fru returns true (not false) and registers FEAENABLED (not FEADISABLED),
leaving the state unchanged; the claim stated failure with
AlreadyDisabled. -/
theorem c9_counterexample :
    fru_disable_area fruEx .board_info = ⟨true, some .feaenabled, fruEx⟩ := by
  decide

/-- C9 amended: enabling an already enabled area fails (returns false) with
FEAENABLED and leaves the order array and presence flags unchanged;
disabling an already disabled area returns true while registering
FEAENABLED in fru_errno, also leaving the state unchanged. -/
theorem c9_enable_disable_precondition :
    (∀ (fru : Fru) (atype : AreaType) (after : AreaPos),
      fru.present.get atype = true →
      fru_enable_area fru atype after = ⟨false, some .feaenabled, fru⟩) ∧
    (∀ (fru : Fru) (atype : AreaType),
      fru.present.get atype = false →
      fru_disable_area fru atype = ⟨true, some .feaenabled, fru⟩) := by
  constructor
  · intro fru atype after h
    simp [fru_enable_area, h]
  · intro fru atype h
    simp [fru_disable_area, h]

/-- C9 witness: the enable law on a fru with the board area present, and
the disable law on a fru without the multirecord area. -/
theorem c9_witness :
    (fruExBoardOn.present.get .board_info = true ∧
      fru_enable_area fruExBoardOn .board_info .auto =
        ⟨false, some .feaenabled, fruExBoardOn⟩) ∧
    (fruEx.present.get .mr = false ∧
      fru_disable_area fruEx .mr = ⟨true, some .feaenabled, fruEx⟩) :=
  ⟨⟨by decide, c9_enable_disable_precondition.1 fruExBoardOn .board_info .auto
      (by decide)⟩,
   ⟨by decide, c9_enable_disable_precondition.2 fruEx .mr (by decide)⟩⟩

/-- C10: a successful fru_add_mr always sets the multirecord presence flag
and leaves a non-empty list, and after a successful fru_delete_mr the
presence flag holds exactly when the remaining list is non-empty (the flag
is cleared when the last record is removed). -/
theorem c10_mr_presence :
    (∀ (fru : Fru) (index : Nat) (rec : MrRec) (fru2 : Fru),
      fru_add_mr fru index rec = some fru2 →
      fru2.present.get .mr = true ∧ fru2.mr ≠ []) ∧
    (∀ (fru : Fru) (index : Nat) (fru2 : Fru),
      fru_delete_mr fru index = some fru2 →
      (fru2.present.get .mr = true ↔ fru2.mr ≠ [])) := by
  constructor
  · intro fru index rec fru2 h
    unfold fru_add_mr at h
    injection h with h
    subst h
    constructor
    · simp [Presence.set, Presence.get]
    · simp only [ne_eq]
      intro hcontr
      have hlen := congrArg List.length hcontr
      rw [List.length_insertIdx (index ⊓ fru.mr.length) fru.mr
        (by simp [Nat.min_le_right])] at hlen
      simp at hlen
  · intro fru index fru2 h
    unfold fru_delete_mr at h
    split at h
    · exact absurd h (by simp)
    · split at h
      · injection h with h
        subst h
        by_cases hemp : (fru.mr.eraseIdx index).isEmpty
        · have hnil : fru.mr.eraseIdx index = [] := List.isEmpty_iff.mp hemp
          simp [hemp, hnil, Presence.set, Presence.get]
        · have hne : fru.mr.eraseIdx index ≠ [] := by
            intro hcontr
            rw [hcontr] at hemp
            simp at hemp
          simp only [hemp, Bool.false_eq_true, if_false, ne_eq, hne,
            not_false_eq_true, iff_true]
          rename_i hpres _
          simpa using hpres
      · exact absurd h (by simp)

/-- C10 witness: the invariant after one concrete add and one concrete
delete. -/
theorem c10_witness :
    (fruExAdded.present.get .mr = true ∧ fruExAdded.mr ≠ []) ∧
    (fruExDeleted.present.get .mr = true ↔ fruExDeleted.mr ≠ []) :=
  ⟨c10_mr_presence.1 fruEx 0 (.mgmt 7 []) fruExAdded (by decide),
   c10_mr_presence.2 fruExMr1 0 fruExDeleted (by decide)⟩

end Frugen
